import Mathlib

/-!
Verification of the query compiler of `src/lib/query-builder.ts` (function
`toDriveQuery`), the zod input schema of `src/schemas/drive-query-schema.ts`,
and the query assembly of the caller `src/mcp/tools/files-search.ts`.

The TypeScript is embedded shallowly: the implicit closure state of
`toDriveQuery` (the five accumulator arrays and the three boolean flags)
becomes an explicit `CompState` threaded through the recursion, exceptions
become `Except String`, and the final regex cleanup
`replace(/\s+and\s+$|\s+or\s+$|^\s+and\s+|^\s+or\s+/gi, '').trim()` is
modelled by a leftmost-match scan (`jsClean`) followed by a trim.  Error
strings keep the source prefixes but omit the `JSON.stringify` payload.
-/

/-- Single quote character (kept out of literals for robustness). -/
def sqChar : Char := Char.ofNat 39

/-- Backslash character. -/
def bsChar : Char := Char.ofNat 92

/-- JS whitespace as used by `\s` and `String.prototype.trim` (common part:
space, tab, LF, VT, FF, CR, NBSP). -/
def isWsChar (c : Char) : Bool :=
  c = ' ' || c = Char.ofNat 9 || c = Char.ofNat 10 || c = Char.ofNat 11 ||
  c = Char.ofNat 12 || c = Char.ofNat 13 || c = Char.ofNat 160

/-- `str.replace(/'/g, "\\'")` at character level: every single quote gains a
preceding backslash. -/
def escQuoteChars : List Char → List Char
  | [] => []
  | c :: cs => if c = sqChar then bsChar :: sqChar :: escQuoteChars cs else c :: escQuoteChars cs

/-- The `quote` helper of `toDriveQuery`: escape single quotes and wrap the
value in single quotes. -/
def quoteVal (s : String) : String :=
  String.mk (sqChar :: (escQuoteChars s.data ++ [sqChar]))

/-- `s.trim() === ''`: the string is empty or all whitespace. -/
def isBlank (s : String) : Bool := s.data.all isWsChar

/-- `Array.prototype.join(sep)`: no separator for zero or one element. -/
def joinSep (sep : String) : List String → String
  | [] => ""
  | [x] => x
  | x :: xs => x ++ sep ++ joinSep sep xs

/-- The `p` helper of `toDriveQuery`: wrap in parentheses. -/
def pWrap (s : String) : String := "(" ++ s ++ ")"

/-- Length of the leading whitespace run (greedy `\s+`). -/
def wsRun : List Char → Nat
  | [] => 0
  | c :: cs => if isWsChar c then wsRun cs + 1 else 0

/-- Case-insensitive literal keyword match (the regex carries the `i` flag);
returns the remainder on success.  `kw` is given in lower case. -/
def matchKw : List Char → List Char → Option (List Char)
  | [], l => some l
  | _ :: _, [] => none
  | k :: ks, c :: cs => if c.toLower = k then matchKw ks cs else none

/-- The keyword `and` of the cleanup regex. -/
def andKw : List Char := ['a', 'n', 'd']

/-- The keyword `or` of the cleanup regex. -/
def orKw : List Char := ['o', 'r']

/-- Does `\s+kw\s+$` match at the current position, i.e. does the whole
remainder consist of a whitespace run, the keyword, and a nonempty whitespace
run to the end?  (`\s+` before the keyword is forced to the full run because
the keyword starts with a non-whitespace character.) -/
def altEnd (kw : List Char) (l : List Char) : Bool :=
  let a := wsRun l
  if a = 0 then false
  else
    match matchKw kw (l.drop a) with
    | some rest => (!rest.isEmpty) && rest.all isWsChar
    | none => false

/-- Match length of `^\s+kw\s+` at position 0 (greedy whitespace runs on both
sides), or `none`. -/
def altStart (kw : List Char) (l : List Char) : Option Nat :=
  let a := wsRun l
  if a = 0 then none
  else
    match matchKw kw (l.drop a) with
    | some rest =>
      let b := wsRun rest
      if b = 0 then none else some (a + kw.length + b)
    | none => none

/-- Scan left to right for the leftmost position where one of the two
end-anchored alternatives matches; such a match consumes everything to the end
of the string, so the scan keeps the prefix before it. -/
def endScan : List Char → List Char
  | [] => []
  | c :: cs =>
    if altEnd andKw (c :: cs) || altEnd orKw (c :: cs) then []
    else c :: endScan cs

/-- Global replace of `/\s+and\s+$|\s+or\s+$|^\s+and\s+|^\s+or\s+/gi` by the
empty string: at position 0 the alternatives are tried in regex order (the two
end-anchored ones first, then the two start-anchored ones); past position 0
only the end-anchored alternatives can match, which `endScan` finds. -/
def jsClean (l : List Char) : List Char :=
  if altEnd andKw l || altEnd orKw l then []
  else
    match altStart andKw l with
    | some n => endScan (l.drop n)
    | none =>
      match altStart orKw l with
      | some n => endScan (l.drop n)
      | none =>
        match l with
        | [] => []
        | c :: cs => c :: endScan cs

/-- `String.prototype.trim()`: strip whitespace from both ends. -/
def trimJs (s : String) : String :=
  String.mk (((s.data.dropWhile isWsChar).reverse.dropWhile isWsChar).reverse)

/-- The post-processing of `toDriveQuery`:
`q.replace(/\s+and\s+$|\s+or\s+$|^\s+and\s+|^\s+or\s+/gi, '').trim()`. -/
def cleanedQuery (s : String) : String := trimJs (String.mk (jsClean s.data))

/-- `FieldOperator` of `query-builder.ts`: `{ $any?, $all?, $none? }`. -/
structure FieldOperator where
  anyOp : Option (List String)
  allOp : Option (List String)
  noneOp : Option (List String)
deriving DecidableEq

/-- A leaf field of `DriveQueryObject` is a plain string or a `FieldOperator`. -/
inductive FieldVal where
  | str (s : String)
  | op (o : FieldOperator)
deriving DecidableEq

/-- `modifiedTime: { $gte?, $lt? }`. -/
structure DateRange where
  gte : Option String
  lt : Option String
deriving DecidableEq

/-- `DriveQueryObject` of `drive-query-schema.ts`: an object with the optional
keys `$and`, `$or`, `$not`, `name`, `mimeType`, `fullText`, `parentId`,
`starred`, `sharedWithMe`, `trashed`, `modifiedTime`, `owner`,
`rawDriveQuery`, in schema order.  `none` models an absent key. -/
inductive DQO where
  | mk (andQ orQ : Option (List DQO)) (notQ : Option DQO)
      (nameQ mimeTypeQ fullTextQ parentIdQ : Option FieldVal)
      (starredQ sharedWithMeQ trashedQ : Option Bool)
      (modifiedTimeQ : Option DateRange)
      (ownerQ : Option FieldVal)
      (rawQ : Option String)

/-- `DriveQuery = string | DriveQueryObject`. -/
inductive DriveQuery where
  | str (s : String)
  | obj (o : DQO)

/-- The `rawDriveQuery` component of a node. -/
def DQO.rawDrive : DQO → Option String
  | .mk _ _ _ _ _ _ _ _ _ _ _ _ rw => rw

/-- The closure state of one `toDriveQuery` call: the five accumulator arrays
and the three tracked flags. -/
structure CompState where
  nameIncludes : List String
  mimeTypeIncludes : List String
  fullTextIncludes : List String
  parentIdIncludes : List String
  ownerIncludes : List String
  starredFlag : Option Bool
  sharedWithMeFlag : Option Bool
  trashedFlag : Option Bool
deriving DecidableEq

/-- The fresh state constructed at the start of every call. -/
def initState : CompState := ⟨[], [], [], [], [], none, none, none⟩

/-- `FiltersObject`: keys are set only under the truthiness checks at the end
of `toDriveQuery` (a list key only when nonempty, a flag only when tracked). -/
structure FiltersObject where
  nameIncludes : Option (List String)
  mimeTypeIncludes : Option (List String)
  fullTextIncludes : Option (List String)
  parentIdIncludes : Option (List String)
  ownerIncludes : Option (List String)
  starred : Option Bool
  sharedWithMe : Option Bool
  trashed : Option Bool
deriving DecidableEq

/-- Filters object with no key set. -/
def emptyFilters : FiltersObject := ⟨none, none, none, none, none, none, none, none⟩

/-- The `{ q, filters }` result of `toDriveQuery`. -/
structure QResult where
  q : String
  filters : FiltersObject
deriving DecidableEq

deriving instance DecidableEq for Except

/-- The `fv` helper: compile one field/value pair to a grammar fragment and
append the raw value to the matching accumulator; unrecognized fields yield
the empty fragment and leave the state unchanged. -/
def fv (field rawVal : String) (s : CompState) : String × CompState :=
  let v := quoteVal rawVal
  if field = "name" then
    ("name contains " ++ v, { s with nameIncludes := s.nameIncludes ++ [rawVal] })
  else if field = "mimeType" then
    ("mimeType = " ++ v, { s with mimeTypeIncludes := s.mimeTypeIncludes ++ [rawVal] })
  else if field = "fullText" then
    ("fullText contains " ++ v, { s with fullTextIncludes := s.fullTextIncludes ++ [rawVal] })
  else if field = "parentId" then
    (v ++ " in parents", { s with parentIdIncludes := s.parentIdIncludes ++ [rawVal] })
  else if field = "owner" then
    (v ++ " in owners", { s with ownerIncludes := s.ownerIncludes ++ [rawVal] })
  else ("", s)

/-- The `chain` helper: drop blank fragments, return zero fragments as `""`,
one verbatim, several joined and wrapped in one pair of parentheses. -/
def chain (op : String) (arr : List String) : String :=
  let filtered := arr.filter (fun x => !isBlank x)
  if filtered.length = 0 then ""
  else if filtered.length = 1 then filtered.headD ""
  else pWrap (joinSep (" " ++ op ++ " ") filtered)

/-- `values.map(v => fv(field, v))` with the accumulator threaded in array
order. -/
def fvList (field : String) : List String → CompState → (List String × CompState)
  | [], s => ([], s)
  | v :: vs, s =>
    let r := fv field v s
    let rest := fvList field vs r.2
    (r.1 :: rest.1, rest.2)

/-- The `fieldExpr` helper: the first present of `$any`/`$all`/`$none` is
processed (blank values dropped, the compiled fragments chained); an operator
with none of the three present throws. -/
def fieldExpr (field : String) (op : FieldOperator) (s : CompState) :
    Except String (String × CompState) :=
  match op.anyOp with
  | some vs =>
    let nonEmpty := vs.filter (fun v => !isBlank v)
    let mapped := fvList field nonEmpty s
    let results := mapped.1.filter (fun r => !isBlank r)
    .ok ((if results.length > 0 then chain ("or") results else ""), mapped.2)
  | none =>
    match op.allOp with
    | some vs =>
      let nonEmpty := vs.filter (fun v => !isBlank v)
      let mapped := fvList field nonEmpty s
      let results := mapped.1.filter (fun r => !isBlank r)
      .ok ((if results.length > 0 then chain ("and") results else ""), mapped.2)
    | none =>
      match op.noneOp with
      | some vs =>
        let nonEmpty := vs.filter (fun v => !isBlank v)
        let mapped := fvList field nonEmpty s
        let results := mapped.1.filter (fun r => !isBlank r)
        .ok ((if results.length > 0 then "not " ++ pWrap (chain ("or") results) else ""), mapped.2)
      | none => .error ("Unknown field operator")

/-- The `dateExpr` helper; a bound present as the empty string is skipped by
JS truthiness. -/
def dateExpr (d : DateRange) : String :=
  let parts :=
    (match d.gte with
     | some g => if g = "" then [] else ["modifiedTime >= " ++ String.mk (sqChar :: (g.data ++ [sqChar]))]
     | none => []) ++
    (match d.lt with
     | some t => if t = "" then [] else ["modifiedTime < " ++ String.mk (sqChar :: (t.data ++ [sqChar]))]
     | none => [])
  if parts.length > 1 then pWrap (joinSep (" and ") parts) else parts.headD ""

/-- Normalization of a leaf field value inside `emit`:
`typeof op === 'string' ? { $any: [op] } : op`. -/
def normalizeFieldVal : FieldVal → FieldOperator
  | .str v => ⟨some [v], none, none⟩
  | .op o => o

/-- The `fieldKeys()` list. -/
def fieldKeys : List String := ["name", "mimeType", "fullText", "parentId", "owner"]

/-- `true` when none of the ten non-combinator keys is present. -/
def allNoneLeaf (nm mi ft pi : Option FieldVal) (st sw tr : Option Bool)
    (md : Option DateRange) (ow : Option FieldVal) (rw : Option String) : Bool :=
  nm.isNone && mi.isNone && ft.isNone && pi.isNone && st.isNone && sw.isNone &&
  tr.isNone && md.isNone && ow.isNone && rw.isNone

/-- `Object.keys(n).length === 0`: no key of the node is present. -/
def isEmptyObj : DQO → Bool
  | .mk a o nt nm mi ft pi st sw tr md ow rw =>
    a.isNone && o.isNone && nt.isNone && allNoneLeaf nm mi ft pi st sw tr md ow rw

/-- `b` rendered as in a JS template literal. -/
def boolLit (b : Bool) : String := if b then "true" else "false"

/-- The boolean-flag and date part of `emit`'s leaf handling, in source order
(`starred`, `sharedWithMe`, `trashed`, `modifiedTime`); the tracked flags are
assigned, and a present `modifiedTime` pushes its fragment unconditionally. -/
def flagParts (st sw tr : Option Bool) (md : Option DateRange) (s : CompState) :
    List String × CompState :=
  let p1 :=
    match st with
    | some b => (["starred = " ++ boolLit b], { s with starredFlag := some b })
    | none => ([], s)
  let p2 :=
    match sw with
    | some b => (["sharedWithMe = " ++ boolLit b], { p1.2 with sharedWithMeFlag := some b })
    | none => ([], p1.2)
  let p3 :=
    match tr with
    | some b => (["trashed = " ++ boolLit b], { p2.2 with trashedFlag := some b })
    | none => ([], p2.2)
  let p4 :=
    match md with
    | some d => [dateExpr d]
    | none => []
  (p1.1 ++ p2.1 ++ p3.1 ++ p4, p3.2)

/-- The `for (const k of fieldKeys())` loop of `emit`: each present field is
normalized and compiled with `fieldExpr`, and a non-blank result is pushed. -/
def processFields : List (String × Option FieldOperator) → CompState →
    Except String (List String × CompState)
  | [], s => .ok ([], s)
  | (_, none) :: rest, s => processFields rest s
  | (k, some op) :: rest, s =>
    match fieldExpr k op s with
    | .error e => .error e
    | .ok (r, s1) =>
      match processFields rest s1 with
      | .error e => .error e
      | .ok (others, s2) => .ok ((if isBlank r then others else r :: others), s2)

/-- The five leaf fields of a node in `fieldKeys()` order, each normalized. -/
def leafEntries (nm mi ft pi ow : Option FieldVal) : List (String × Option FieldOperator) :=
  [("name", nm.map normalizeFieldVal), ("mimeType", mi.map normalizeFieldVal),
   ("fullText", ft.map normalizeFieldVal), ("parentId", pi.map normalizeFieldVal),
   ("owner", ow.map normalizeFieldVal)]

mutual
/-- The recursive `emit` of `toDriveQuery`: a present `$and`/`$or`/`$not` is
handled first (in that order) and returns early; otherwise the leaf
expressions are collected and combined with `chain('and', …)`; a non-empty
node producing no expression throws `Unknown node`. -/
def emit : DQO → CompState → Except String (String × CompState)
  | .mk a o nt nm mi ft pi st sw tr md ow rw, s =>
    match a with
    | some l =>
      (match emitList l s with
       | .error e => .error e
       | .ok (qs, s1) => .ok (pWrap (joinSep (" and ") qs), s1))
    | none =>
      match o with
      | some l =>
        (match emitList l s with
         | .error e => .error e
         | .ok (qs, s1) => .ok (pWrap (joinSep (" or ") qs), s1))
      | none =>
        match nt with
        | some c =>
          (match emit c s with
           | .error e => .error e
           | .ok (q, s1) => .ok ("not " ++ q, s1))
        | none =>
          let flags := flagParts st sw tr md s
          match processFields (leafEntries nm mi ft pi ow) flags.2 with
          | .error e => .error e
          | .ok (fieldRs, s2) =>
            let expressions := flags.1 ++ fieldRs
            if expressions.length = 0 && allNoneLeaf nm mi ft pi st sw tr md ow rw then
              .ok ("", s2)
            else if expressions.length > 1 then .ok (chain ("and") expressions, s2)
            else if expressions.length = 1 then .ok (expressions.headD "", s2)
            else .error ("Unknown node")

/-- `children.map(emit)` with the accumulator threaded left to right;
an exception aborts the whole call. -/
def emitList : List DQO → CompState → Except String (List String × CompState)
  | [], s => .ok ([], s)
  | c :: cs, s =>
    match emit c s with
    | .error e => .error e
    | .ok (q, s1) =>
      (match emitList cs s1 with
       | .error e => .error e
       | .ok (qs, s2) => .ok (q :: qs, s2))
end

/-- The root-level `emitTop`: identical to `emit` except that a root
`$and`/`$or` join is not parenthesized, an empty object yields `""`, and a
blank leaf result is collapsed to `""`. -/
def emitTop (n : DQO) (s : CompState) : Except String (String × CompState) :=
  if isEmptyObj n then .ok ("", s)
  else
    match n with
    | .mk (some l) _ _ _ _ _ _ _ _ _ _ _ _ =>
      (match emitList l s with
       | .error e => .error e
       | .ok (qs, s1) => .ok (joinSep (" and ") qs, s1))
    | .mk none (some l) _ _ _ _ _ _ _ _ _ _ _ =>
      (match emitList l s with
       | .error e => .error e
       | .ok (qs, s1) => .ok (joinSep (" or ") qs, s1))
    | .mk none none (some c) _ _ _ _ _ _ _ _ _ _ =>
      (match emit c s with
       | .error e => .error e
       | .ok (q, s1) => .ok ("not " ++ q, s1))
    | nn =>
      match emit nn s with
      | .error e => .error e
      | .ok (r, s1) => .ok ((if isBlank r then "" else r), s1)

/-- The filters object assembled at the end of `toDriveQuery`. -/
def mkFilters (s : CompState) : FiltersObject :=
  ⟨(if s.nameIncludes.isEmpty then none else some s.nameIncludes),
   (if s.mimeTypeIncludes.isEmpty then none else some s.mimeTypeIncludes),
   (if s.fullTextIncludes.isEmpty then none else some s.fullTextIncludes),
   (if s.parentIdIncludes.isEmpty then none else some s.parentIdIncludes),
   (if s.ownerIncludes.isEmpty then none else some s.ownerIncludes),
   s.starredFlag, s.sharedWithMeFlag, s.trashedFlag⟩

/-- `toDriveQuery`: a plain string is returned as-is with empty filters; an
object is compiled from a fresh state, post-processed, and paired with its
filters summary. -/
def toDriveQuery : DriveQuery → Except String QResult
  | .str q => .ok ⟨q, emptyFilters⟩
  | .obj n =>
    match emitTop n initState with
    | .error e => .error e
    | .ok (q, s) => .ok ⟨cleanedQuery q, mkFilters s⟩

/-- The structured branch of the query assembly in `files-search.ts`:
`q ? `(${q}) and trashed = false` : 'trashed = false'`. -/
def filesSearchStructured (n : DQO) : Except String String :=
  match toDriveQuery (.obj n) with
  | .error e => .error e
  | .ok r => .ok (if r.q = "" then "trashed = false" else pWrap r.q ++ " and trashed = false")

/-- The query assembly of `files-search.ts`: a string query and a node with a
truthy `rawDriveQuery` are wrapped verbatim in parentheses and ANDed with
`trashed = false`; otherwise the node goes through `toDriveQuery`. -/
def filesSearchQuery : DriveQuery → Except String String
  | .str qs => .ok (pWrap qs ++ " and trashed = false")
  | .obj n =>
    match n.rawDrive with
    | some rq => if rq = "" then filesSearchStructured n else .ok (pWrap rq ++ " and trashed = false")
    | none => filesSearchStructured n

/-- Shorthand for a node whose only key is `name` set to a plain string. -/
def nodeOfName (v : String) : DQO :=
  .mk none none none (some (.str v)) none none none none none none none none none

/-- The empty object `{}`. -/
def emptyNode : DQO :=
  .mk none none none none none none none none none none none none none

/-- Consume exactly `n` decimal digits. -/
def takeDigits : Nat → List Char → Option (List Char)
  | 0, l => some l
  | _ + 1, [] => none
  | n + 1, c :: cs => if c.isDigit then takeDigits n cs else none

/-- Consume one expected character. -/
def expectChar (c : Char) : List Char → Option (List Char)
  | [] => none
  | d :: ds => if d = c then some ds else none

/-- The optional time tail `T\d{2}:\d{2}:\d{2}(\.\d{3})?Z` ending the string. -/
def timeTail (l : List Char) : Bool :=
  match takeDigits 2 l with
  | none => false
  | some l1 =>
    match expectChar ':' l1 with
    | none => false
    | some l2 =>
      match takeDigits 2 l2 with
      | none => false
      | some l3 =>
        match expectChar ':' l3 with
        | none => false
        | some l4 =>
          match takeDigits 2 l4 with
          | none => false
          | some l5 =>
            match l5 with
            | ['Z'] => true
            | '.' :: l6 =>
              (match takeDigits 3 l6 with
               | some ['Z'] => true
               | _ => false)
            | _ => false

/-- The date pattern `^\d{4}-\d{2}-\d{2}(T\d{2}:\d{2}:\d{2}(\.\d{3})?Z)?$` of
the schema's `modifiedTime` bounds. -/
def dateRegexOk (s : String) : Bool :=
  match takeDigits 4 s.data with
  | none => false
  | some l1 =>
    match expectChar '-' l1 with
    | none => false
    | some l2 =>
      match takeDigits 2 l2 with
      | none => false
      | some l3 =>
        match expectChar '-' l3 with
        | none => false
        | some l4 =>
          match takeDigits 2 l4 with
          | none => false
          | some l5 =>
            match l5 with
            | [] => true
            | 'T' :: l6 => timeTail l6
            | _ => false

/-- Validity of a leaf field value under the schema:
`z.union([z.string().min(1), FieldOperatorSchema])` (every key of the
operator is optional, so the empty operator is schema-valid). -/
def fieldValValid : Option FieldVal → Bool
  | none => true
  | some (.str v) => !v.isEmpty
  | some (.op _) => true

/-- Validity of the `modifiedTime` object: each present bound matches the
date pattern. -/
def dateRangeValid : Option DateRange → Bool
  | none => true
  | some d =>
    (match d.gte with
     | some g => dateRegexOk g
     | none => true) &&
    (match d.lt with
     | some t => dateRegexOk t
     | none => true)

mutual
/-- `DriveQueryObjectSchema.safeParse` succeeds on the node: every present
string key is nonempty, dates match the pattern, children valid recursively. -/
def schemaValidObj : DQO → Bool
  | .mk a o nt nm mi ft pi _ _ _ md ow rw =>
    (match a with
     | some l => schemaValidList l
     | none => true) &&
    (match o with
     | some l => schemaValidList l
     | none => true) &&
    (match nt with
     | some c => schemaValidObj c
     | none => true) &&
    fieldValValid nm && fieldValValid mi && fieldValValid ft && fieldValValid pi &&
    dateRangeValid md && fieldValValid ow &&
    (match rw with
     | some r => !r.isEmpty
     | none => true)

/-- Schema validity of a list of child nodes. -/
def schemaValidList : List DQO → Bool
  | [] => true
  | c :: cs => schemaValidObj c && schemaValidList cs
end

/-- `DriveQuerySchema.safeParse` succeeds: a nonempty string or a valid node. -/
def schemaValidQuery : DriveQuery → Bool
  | .str s => !s.isEmpty
  | .obj n => schemaValidObj n

/-- At least one of `$any`/`$all`/`$none` is present, so `fieldExpr` does not
throw on the operator. -/
def opOk (o : FieldOperator) : Bool :=
  o.anyOp.isSome || o.allOp.isSome || o.noneOp.isSome

/-- The clause `fieldExpr` would process (the first present one) holds a
non-blank value, so the field contributes a non-blank fragment. -/
def opActive (o : FieldOperator) : Bool :=
  match o.anyOp with
  | some vs => vs.any (fun v => !isBlank v)
  | none =>
    match o.allOp with
    | some vs => vs.any (fun v => !isBlank v)
    | none =>
      match o.noneOp with
      | some vs => vs.any (fun v => !isBlank v)
      | none => false

/-- A present leaf field value whose normalized operator does not throw. -/
def fieldValOk : Option FieldVal → Bool
  | none => true
  | some (.str _) => true
  | some (.op o) => opOk o

/-- A present leaf field value that contributes a non-blank fragment. -/
def fieldValActive : Option FieldVal → Bool
  | none => false
  | some w => opActive (normalizeFieldVal w)

mutual
/-- Inputs on which `emit` provably does not throw: every field operator in
the tree has a present clause, and every non-combinator node is either the
empty object or contributes at least one expression (a boolean flag, a
`modifiedTime`, or a leaf field with a non-blank value in its processed
clause). -/
def wfQuery : DQO → Bool
  | .mk a o nt nm mi ft pi st sw tr md ow rw =>
    match a with
    | some l => wfList l
    | none =>
      match o with
      | some l => wfList l
      | none =>
        match nt with
        | some c => wfQuery c
        | none =>
          fieldValOk nm && fieldValOk mi && fieldValOk ft && fieldValOk pi && fieldValOk ow &&
          (allNoneLeaf nm mi ft pi st sw tr md ow rw || st.isSome || sw.isSome || tr.isSome ||
           md.isSome || fieldValActive nm || fieldValActive mi || fieldValActive ft ||
           fieldValActive pi || fieldValActive ow)

/-- `wfQuery` on every element. -/
def wfList : List DQO → Bool
  | [] => true
  | c :: cs => wfQuery c && wfList cs
end

/-- The five leaf-field names of the compiler, as an enumeration. -/
inductive LeafField where
  | name
  | mimeType
  | fullText
  | parentId
  | owner
deriving DecidableEq

/-- The field name passed to `fv`/`fieldExpr` for the leaf field. -/
def LeafField.key : LeafField → String
  | .name => "name"
  | .mimeType => "mimeType"
  | .fullText => "fullText"
  | .parentId => "parentId"
  | .owner => "owner"

/-- Replace one leaf field of a node. -/
def setLeaf (fld : LeafField) (v : Option FieldVal) : DQO → DQO
  | .mk a o nt nm mi ft pi st sw tr md ow rw =>
    match fld with
    | .name => .mk a o nt v mi ft pi st sw tr md ow rw
    | .mimeType => .mk a o nt nm v ft pi st sw tr md ow rw
    | .fullText => .mk a o nt nm mi v pi st sw tr md ow rw
    | .parentId => .mk a o nt nm mi ft v st sw tr md ow rw
    | .owner => .mk a o nt nm mi ft pi st sw tr md v rw

/-- The accumulator list of a leaf field inside the closure state. -/
def summaryList (fld : LeafField) (s : CompState) : List String :=
  match fld with
  | .name => s.nameIncludes
  | .mimeType => s.mimeTypeIncludes
  | .fullText => s.fullTextIncludes
  | .parentId => s.parentIdIncludes
  | .owner => s.ownerIncludes

/-- A sequence of independent `toDriveQuery` calls, as made by a hosting
process; each call constructs its own fresh accumulator state. -/
def runCalls (calls : List DriveQuery) : List (Except String QResult) :=
  calls.map toDriveQuery

theorem summaryList_fv (fld : LeafField) (v : String) (s : CompState) :
    summaryList fld (fv fld.key v s).2 = summaryList fld s ++ [v] := by
  cases fld <;> simp [fv, LeafField.key, summaryList]

theorem summaryList_fvList (fld : LeafField) (vs : List String) (s : CompState) :
    summaryList fld (fvList fld.key vs s).2 = summaryList fld s ++ vs := by
  induction vs generalizing s with
  | nil => simp [fvList]
  | cons v vs ih => simp [fvList, ih, summaryList_fv]

theorem isBlank_append (a b : String) : isBlank (a ++ b) = (isBlank a && isBlank b) := by
  simp [isBlank, String.data_append]

theorem isBlank_quoteVal (v : String) : isBlank (quoteVal v) = false := by
  simp [isBlank, quoteVal]
  intro h
  simp [isWsChar, sqChar] at h

theorem fv_key_nonblank (fld : LeafField) (v : String) (s : CompState) :
    isBlank (fv fld.key v s).1 = false := by
  cases fld <;>
    simp [fv, LeafField.key, isBlank_append, isBlank_quoteVal]

theorem fvList_all_nonblank (fld : LeafField) (vs : List String) (s : CompState) :
    ((fvList fld.key vs s).1).all (fun r => !isBlank r) = true := by
  induction vs generalizing s with
  | nil => simp [fvList]
  | cons v vs ih => simp [fvList, fv_key_nonblank, ih]

theorem fvList_len (k : String) (vs : List String) (s : CompState) :
    (fvList k vs s).1.length = vs.length := by
  induction vs generalizing s with
  | nil => rfl
  | cons v vs ih => simp [fvList, ih]

theorem chain_nonblank (op : String) (rs : List String) (h1 : rs ≠ [])
    (h2 : rs.all (fun r => !isBlank r) = true) : isBlank (chain op rs) = false := by
  have hf : rs.filter (fun r => !isBlank r) = rs := by
    refine List.filter_eq_self.mpr ?_
    intro a ha
    exact (List.all_eq_true.mp h2) a ha
  simp only [chain, hf]
  rcases rs with _ | ⟨x, rs2⟩
  · simp at h1
  · rcases rs2 with _ | ⟨y, rs3⟩
    · simp at h2 ⊢
      simpa using h2
    · have hp : isBlank ("(") = false := by decide
      simp [pWrap, isBlank_append, hp]

theorem fieldExpr_ok_of_opOk (k : String) (op : FieldOperator) (s : CompState)
    (h : opOk op = true) : ∃ r s2, fieldExpr k op s = .ok (r, s2) := by
  rcases op with ⟨ao, al, no⟩
  cases ao <;> cases al <;> cases no <;>
    simp [opOk] at h ⊢ <;>
    exact ⟨_, _, rfl⟩

theorem fieldExpr_active (fld : LeafField) (op : FieldOperator) (s : CompState)
    (h : opActive op = true) :
    ∃ r s2, fieldExpr fld.key op s = .ok (r, s2) ∧ isBlank r = false := by
  rcases op with ⟨ao, al, no⟩
  cases ao with
  | some vs =>
    refine ⟨_, _, rfl, ?_⟩
    simp [opActive] at h
    have hne : vs.filter (fun v => !isBlank v) ≠ [] := by
      intro hnil
      rcases h with ⟨x, hx, hbx⟩
      exact absurd (List.filter_eq_nil_iff.mp hnil x hx) (by simp [hbx])
    have hall := fvList_all_nonblank fld (vs.filter (fun v => !isBlank v)) s
    have hfilter :
        ((fvList fld.key (vs.filter (fun v => !isBlank v)) s).1.filter (fun r => !isBlank r)) =
          (fvList fld.key (vs.filter (fun v => !isBlank v)) s).1 := by
      refine List.filter_eq_self.mpr ?_
      intro a ha
      exact (List.all_eq_true.mp hall) a ha
    have hlen : (fvList fld.key (vs.filter (fun v => !isBlank v)) s).1.length =
        (vs.filter (fun v => !isBlank v)).length := fvList_len _ _ _
    have hpos : 0 < (vs.filter (fun v => !isBlank v)).length := by
      cases hh : vs.filter (fun v => !isBlank v) with
      | nil => exact absurd hh hne
      | cons a as => simp
    simp only [hfilter, hlen, hpos, if_pos]
    have hne2 : (fvList fld.key (vs.filter (fun v => !isBlank v)) s).1 ≠ [] := by
      intro hnil
      rw [hnil] at hlen
      simp at hlen
      omega
    exact chain_nonblank _ _ hne2 hall
  | none =>
    cases al with
    | some vs =>
      refine ⟨_, _, rfl, ?_⟩
      simp [opActive] at h
      have hne : vs.filter (fun v => !isBlank v) ≠ [] := by
        intro hnil
        rcases h with ⟨x, hx, hbx⟩
        exact absurd (List.filter_eq_nil_iff.mp hnil x hx) (by simp [hbx])
      have hall := fvList_all_nonblank fld (vs.filter (fun v => !isBlank v)) s
      have hfilter :
          ((fvList fld.key (vs.filter (fun v => !isBlank v)) s).1.filter (fun r => !isBlank r)) =
            (fvList fld.key (vs.filter (fun v => !isBlank v)) s).1 := by
        refine List.filter_eq_self.mpr ?_
        intro a ha
        exact (List.all_eq_true.mp hall) a ha
      have hlen : (fvList fld.key (vs.filter (fun v => !isBlank v)) s).1.length =
          (vs.filter (fun v => !isBlank v)).length := fvList_len _ _ _
      have hpos : 0 < (vs.filter (fun v => !isBlank v)).length := by
        cases hh : vs.filter (fun v => !isBlank v) with
        | nil => exact absurd hh hne
        | cons a as => simp
      simp only [hfilter, hlen, hpos, if_pos]
      have hne2 : (fvList fld.key (vs.filter (fun v => !isBlank v)) s).1 ≠ [] := by
        intro hnil
        rw [hnil] at hlen
        simp at hlen
        omega
      exact chain_nonblank _ _ hne2 hall
    | none =>
      cases no with
      | some vs =>
        refine ⟨_, _, rfl, ?_⟩
        simp [opActive] at h
        have hne : vs.filter (fun v => !isBlank v) ≠ [] := by
          intro hnil
          rcases h with ⟨x, hx, hbx⟩
          exact absurd (List.filter_eq_nil_iff.mp hnil x hx) (by simp [hbx])
        have hlen : (fvList fld.key (vs.filter (fun v => !isBlank v)) s).1.length =
            (vs.filter (fun v => !isBlank v)).length := fvList_len _ _ _
        have hall := fvList_all_nonblank fld (vs.filter (fun v => !isBlank v)) s
        have hfilter :
            ((fvList fld.key (vs.filter (fun v => !isBlank v)) s).1.filter (fun r => !isBlank r)) =
              (fvList fld.key (vs.filter (fun v => !isBlank v)) s).1 := by
          refine List.filter_eq_self.mpr ?_
          intro a ha
          exact (List.all_eq_true.mp hall) a ha
        have hpos : 0 < (vs.filter (fun v => !isBlank v)).length := by
          cases hh : vs.filter (fun v => !isBlank v) with
          | nil => exact absurd hh hne
          | cons a as => simp
        simp only [hfilter, hlen, hpos, if_pos]
        have hnb : isBlank ("not ") = false := by decide
        simp [isBlank_append, hnb]
      | none => simp [opActive] at h

theorem opOk_normalize (w : FieldVal) (h : fieldValOk (some w) = true) :
    opOk (normalizeFieldVal w) = true := by
  cases w with
  | str v => simp [normalizeFieldVal, opOk]
  | op o => simpa [fieldValOk, normalizeFieldVal] using h

theorem processFields_total (entries : List (String × Option FieldOperator)) (s : CompState)
    (hOk : ∀ p ∈ entries, ∀ op, p.2 = some op → opOk op = true) :
    ∃ rs s2, processFields entries s = .ok (rs, s2) ∧
      ((∃ p ∈ entries, ∃ op, p.2 = some op ∧ opActive op = true ∧ ∃ fld : LeafField, p.1 = fld.key) →
        rs ≠ []) := by
  induction entries generalizing s with
  | nil =>
    refine ⟨[], s, rfl, ?_⟩
    simp
  | cons e rest ih =>
    rcases e with ⟨k, po⟩
    cases po with
    | none =>
      obtain ⟨rs, s2, heq, himp⟩ := ih s (fun p hp => hOk p (List.mem_cons_of_mem _ hp))
      refine ⟨rs, s2, by simpa [processFields] using heq, ?_⟩
      rintro ⟨p, hp, op2, hpo, hact, fld, hkey⟩
      rcases List.mem_cons.mp hp with rfl | hp2
      · simp at hpo
      · exact himp ⟨p, hp2, op2, hpo, hact, fld, hkey⟩
    | some op =>
      have hop : opOk op = true := hOk (k, some op) (List.mem_cons_self _ _) op rfl
      obtain ⟨r, s1, heq1⟩ := fieldExpr_ok_of_opOk k op s hop
      obtain ⟨rs, s2, heq2, himp⟩ := ih s1 (fun p hp => hOk p (List.mem_cons_of_mem _ hp))
      refine ⟨(if isBlank r then rs else r :: rs), s2, by simp [processFields, heq1, heq2], ?_⟩
      rintro ⟨p, hp, op2, hpo, hact, fld, hkey⟩
      rcases List.mem_cons.mp hp with rfl | hp2
      · have hpo2 : op2 = op := by simpa using hpo.symm
        subst hpo2
        have hkey2 : k = fld.key := by simpa using hkey
        subst hkey2
        obtain ⟨r2, s3, heq3, hnb⟩ := fieldExpr_active fld op2 s hact
        rw [heq1] at heq3
        simp only [Except.ok.injEq, Prod.mk.injEq] at heq3
        obtain ⟨h10, h11⟩ := heq3
        subst h10
        simp [hnb]
      · have := himp ⟨p, hp2, op2, hpo, hact, fld, hkey⟩
        intro hcon
        by_cases hb : isBlank r = true
        · rw [if_pos hb] at hcon
          exact this hcon
        · rw [if_neg hb] at hcon
          simp at hcon

theorem flagParts_ne_nil (st sw tr : Option Bool) (md : Option DateRange) (s : CompState)
    (h : (st.isSome || sw.isSome || tr.isSome || md.isSome) = true) :
    (flagParts st sw tr md s).1 ≠ [] := by
  cases st <;> cases sw <;> cases tr <;> cases md <;> simp_all [flagParts]

theorem fieldValActive_entry (w : Option FieldVal) (h : fieldValActive w = true) :
    ∃ x, w = some x ∧ opActive (normalizeFieldVal x) = true := by
  cases w with
  | none => simp [fieldValActive] at h
  | some x => exact ⟨x, rfl, h⟩

theorem emit_leaf_ok (nm mi ft pi : Option FieldVal) (st sw tr : Option Bool)
    (md : Option DateRange) (ow : Option FieldVal) (rw : Option String) (s : CompState)
    (hOk : (fieldValOk nm && fieldValOk mi && fieldValOk ft && fieldValOk pi && fieldValOk ow) = true)
    (hAct : (allNoneLeaf nm mi ft pi st sw tr md ow rw || st.isSome || sw.isSome || tr.isSome ||
      md.isSome || fieldValActive nm || fieldValActive mi || fieldValActive ft ||
      fieldValActive pi || fieldValActive ow) = true) :
    ∃ out, emit (.mk none none none nm mi ft pi st sw tr md ow rw) s = .ok out := by
  simp only [Bool.and_eq_true] at hOk
  obtain ⟨⟨⟨⟨hOk1, hOk2⟩, hOk3⟩, hOk4⟩, hOk5⟩ := hOk
  by_cases hAll : allNoneLeaf nm mi ft pi st sw tr md ow rw = true
  · simp only [allNoneLeaf, Bool.and_eq_true, Option.isNone_iff_eq_none] at hAll
    obtain ⟨⟨⟨⟨⟨⟨⟨⟨⟨h1, h2⟩, h3⟩, h4⟩, h5⟩, h6⟩, h7⟩, h8⟩, h9⟩, h10⟩ := hAll
    subst h1; subst h2; subst h3; subst h4; subst h5
    subst h6; subst h7; subst h8; subst h9; subst h10
    exact ⟨("", s), by simp [emit, flagParts, leafEntries, processFields, allNoneLeaf]⟩
  · have hOkE : ∀ p ∈ leafEntries nm mi ft pi ow, ∀ op, p.2 = some op → opOk op = true := by
      intro p hp op hpo
      simp only [leafEntries, List.mem_cons, List.mem_singleton] at hp
      rcases hp with rfl | rfl | rfl | rfl | rfl | hfalse
      · rcases nm with _ | w
        · simp at hpo
        · simp at hpo
          subst hpo
          exact opOk_normalize w hOk1
      · rcases mi with _ | w
        · simp at hpo
        · simp at hpo
          subst hpo
          exact opOk_normalize w hOk2
      · rcases ft with _ | w
        · simp at hpo
        · simp at hpo
          subst hpo
          exact opOk_normalize w hOk3
      · rcases pi with _ | w
        · simp at hpo
        · simp at hpo
          subst hpo
          exact opOk_normalize w hOk4
      · rcases ow with _ | w
        · simp at hpo
        · simp at hpo
          subst hpo
          exact opOk_normalize w hOk5
      · simp at hfalse
    obtain ⟨rs, s2, heq, himp⟩ :=
      processFields_total (leafEntries nm mi ft pi ow) (flagParts st sw tr md s).2 hOkE
    have hne : (flagParts st sw tr md s).1 ++ rs ≠ [] := by
      simp only [hAll, Bool.false_or, Bool.or_eq_true] at hAct
      rcases hAct with ((((((((hA | hA) | hA) | hA) | hA) | hA) | hA) | hA) | hA)
      · intro hcon
        exact flagParts_ne_nil st sw tr md s (by simp [hA]) (List.append_eq_nil.mp hcon).1
      · intro hcon
        exact flagParts_ne_nil st sw tr md s (by simp [hA]) (List.append_eq_nil.mp hcon).1
      · intro hcon
        exact flagParts_ne_nil st sw tr md s (by simp [hA]) (List.append_eq_nil.mp hcon).1
      · intro hcon
        exact flagParts_ne_nil st sw tr md s (by simp [hA]) (List.append_eq_nil.mp hcon).1
      · obtain ⟨x, hx, hax⟩ := fieldValActive_entry nm hA
        have : rs ≠ [] := himp ⟨("name", (some x).map normalizeFieldVal), by simp [leafEntries, hx],
          normalizeFieldVal x, by simp, hax, LeafField.name, rfl⟩
        intro hcon
        exact this (List.append_eq_nil.mp hcon).2
      · obtain ⟨x, hx, hax⟩ := fieldValActive_entry mi hA
        have : rs ≠ [] := himp ⟨("mimeType", (some x).map normalizeFieldVal), by simp [leafEntries, hx],
          normalizeFieldVal x, by simp, hax, LeafField.mimeType, rfl⟩
        intro hcon
        exact this (List.append_eq_nil.mp hcon).2
      · obtain ⟨x, hx, hax⟩ := fieldValActive_entry ft hA
        have : rs ≠ [] := himp ⟨("fullText", (some x).map normalizeFieldVal), by simp [leafEntries, hx],
          normalizeFieldVal x, by simp, hax, LeafField.fullText, rfl⟩
        intro hcon
        exact this (List.append_eq_nil.mp hcon).2
      · obtain ⟨x, hx, hax⟩ := fieldValActive_entry pi hA
        have : rs ≠ [] := himp ⟨("parentId", (some x).map normalizeFieldVal), by simp [leafEntries, hx],
          normalizeFieldVal x, by simp, hax, LeafField.parentId, rfl⟩
        intro hcon
        exact this (List.append_eq_nil.mp hcon).2
      · obtain ⟨x, hx, hax⟩ := fieldValActive_entry ow hA
        have : rs ≠ [] := himp ⟨("owner", (some x).map normalizeFieldVal), by simp [leafEntries, hx],
          normalizeFieldVal x, by simp, hax, LeafField.owner, rfl⟩
        intro hcon
        exact this (List.append_eq_nil.mp hcon).2
    simp only [emit, heq]
    rcases hE : (flagParts st sw tr md s).1 ++ rs with _ | ⟨x, xs⟩
    · exact absurd hE hne
    · rcases xs with _ | ⟨y, ys⟩
      · exact ⟨(([x].headD ""), s2), by simp⟩
      · exact ⟨(chain ("and") (x :: y :: ys), s2), by simp⟩

theorem emit_wf_main : ∀ N : Nat,
    (∀ n : DQO, ∀ s : CompState, sizeOf n ≤ N → wfQuery n = true → ∃ out, emit n s = .ok out) ∧
    (∀ l : List DQO, ∀ s : CompState, sizeOf l ≤ N → wfList l = true → ∃ out, emitList l s = .ok out) := by
  intro N
  induction N using Nat.strong_induction_on with
  | _ N ih =>
    constructor
    · intro n s hsz hwf
      rcases n with ⟨a, o, nt, nm, mi, ft, pi, st, sw, tr, md, ow, rw⟩
      cases a with
      | some l =>
        have hlt : sizeOf l < N := by
          have hspec : sizeOf (DQO.mk (some l) o nt nm mi ft pi st sw tr md ow rw) =
              1 + sizeOf (some l) + sizeOf o + sizeOf nt + sizeOf nm + sizeOf mi + sizeOf ft +
              sizeOf pi + sizeOf st + sizeOf sw + sizeOf tr + sizeOf md + sizeOf ow + sizeOf rw := by
            simp
          simp only [Option.some.sizeOf_spec] at hspec
          omega
        have hwl : wfList l = true := by simpa [wfQuery] using hwf
        obtain ⟨out, hout⟩ := (ih (sizeOf l) hlt).2 l s le_rfl hwl
        rcases out with ⟨qs, s1⟩
        exact ⟨(pWrap (joinSep (" and ") qs), s1), by simp [emit, hout]⟩
      | none =>
        cases o with
        | some l =>
          have hlt : sizeOf l < N := by
            have hspec : sizeOf (DQO.mk none (some l) nt nm mi ft pi st sw tr md ow rw) =
                1 + sizeOf (none : Option (List DQO)) + sizeOf (some l) + sizeOf nt + sizeOf nm +
                sizeOf mi + sizeOf ft + sizeOf pi + sizeOf st + sizeOf sw + sizeOf tr + sizeOf md +
                sizeOf ow + sizeOf rw := by
              simp
            simp only [Option.some.sizeOf_spec] at hspec
            omega
          have hwl : wfList l = true := by simpa [wfQuery] using hwf
          obtain ⟨out, hout⟩ := (ih (sizeOf l) hlt).2 l s le_rfl hwl
          rcases out with ⟨qs, s1⟩
          exact ⟨(pWrap (joinSep (" or ") qs), s1), by simp [emit, hout]⟩
        | none =>
          cases nt with
          | some c =>
            have hlt : sizeOf c < N := by
              have hspec : sizeOf (DQO.mk none none (some c) nm mi ft pi st sw tr md ow rw) =
                  1 + sizeOf (none : Option (List DQO)) + sizeOf (none : Option (List DQO)) +
                  sizeOf (some c) + sizeOf nm + sizeOf mi + sizeOf ft + sizeOf pi + sizeOf st +
                  sizeOf sw + sizeOf tr + sizeOf md + sizeOf ow + sizeOf rw := by
                simp
              simp only [Option.some.sizeOf_spec] at hspec
              omega
            have hwc : wfQuery c = true := by simpa [wfQuery] using hwf
            obtain ⟨out, hout⟩ := (ih (sizeOf c) hlt).1 c s le_rfl hwc
            rcases out with ⟨q, s1⟩
            exact ⟨("not " ++ q, s1), by simp [emit, hout]⟩
          | none =>
            simp only [wfQuery, Bool.and_eq_true] at hwf
            obtain ⟨⟨⟨⟨⟨hOk1, hOk2⟩, hOk3⟩, hOk4⟩, hOk5⟩, hAct⟩ := hwf
            exact emit_leaf_ok nm mi ft pi st sw tr md ow rw s
              (by simp [hOk1, hOk2, hOk3, hOk4, hOk5]) hAct
    · intro l s hsz hwl
      cases l with
      | nil => exact ⟨_, rfl⟩
      | cons c cs =>
        simp only [wfList, Bool.and_eq_true] at hwl
        have hszc : sizeOf c < N := by
          have : sizeOf (c :: cs) = 1 + sizeOf c + sizeOf cs := by simp
          omega
        have hszcs : sizeOf cs < N := by
          have : sizeOf (c :: cs) = 1 + sizeOf c + sizeOf cs := by simp
          omega
        obtain ⟨out1, hout1⟩ := (ih (sizeOf c) hszc).1 c s le_rfl hwl.1
        rcases out1 with ⟨q, s1⟩
        obtain ⟨out2, hout2⟩ := (ih (sizeOf cs) hszcs).2 cs s1 le_rfl hwl.2
        rcases out2 with ⟨qs, s2⟩
        exact ⟨(q :: qs, s2), by simp [emitList, hout1, hout2]⟩

theorem emit_wf_ok (n : DQO) (s : CompState) (hwf : wfQuery n = true) :
    ∃ out, emit n s = .ok out :=
  (emit_wf_main (sizeOf n)).1 n s le_rfl hwf

theorem emitList_wf_ok (l : List DQO) (s : CompState) (hwl : wfList l = true) :
    ∃ out, emitList l s = .ok out :=
  (emit_wf_main (sizeOf l)).2 l s le_rfl hwl

theorem emitTop_wf_ok (n : DQO) (s : CompState) (hwf : wfQuery n = true) :
    ∃ out, emitTop n s = .ok out := by
  by_cases hEmpty : isEmptyObj n = true
  · exact ⟨("", s), by simp [emitTop, hEmpty]⟩
  · rcases n with ⟨a, o, nt, nm, mi, ft, pi, st, sw, tr, md, ow, rw⟩
    cases a with
    | some l =>
      have hwl : wfList l = true := by simpa [wfQuery] using hwf
      obtain ⟨⟨qs, s1⟩, hout⟩ := emitList_wf_ok l s hwl
      exact ⟨(joinSep (" and ") qs, s1), by simp [emitTop, hEmpty, hout]⟩
    | none =>
      cases o with
      | some l =>
        have hwl : wfList l = true := by simpa [wfQuery] using hwf
        obtain ⟨⟨qs, s1⟩, hout⟩ := emitList_wf_ok l s hwl
        exact ⟨(joinSep (" or ") qs, s1), by simp [emitTop, hEmpty, hout]⟩
      | none =>
        cases nt with
        | some c =>
          have hwc : wfQuery c = true := by simpa [wfQuery] using hwf
          obtain ⟨⟨q, s1⟩, hout⟩ := emit_wf_ok c s hwc
          exact ⟨("not " ++ q, s1), by simp [emitTop, hEmpty, hout]⟩
        | none =>
          obtain ⟨⟨q, s1⟩, hout⟩ :=
            emit_wf_ok (.mk none none none nm mi ft pi st sw tr md ow rw) s hwf
          exact ⟨((if isBlank q then "" else q), s1), by simp [emitTop, hEmpty, hout]⟩

-- C3 amended candidate

theorem matchKw_drop (kw : List Char) : ∀ m rest, matchKw kw m = some rest → rest = m.drop kw.length := by
  induction kw with
  | nil =>
    intro m rest h
    simp [matchKw] at h
    simp [h]
  | cons k ks ih =>
    intro m rest h
    cases m with
    | nil => simp [matchKw] at h
    | cons c cs =>
      simp only [matchKw] at h
      by_cases hc : c.toLower = k
      · rw [if_pos hc] at h
        simpa using ih cs rest h
      · rw [if_neg hc] at h
        exact absurd h (by simp)

theorem wsRun_take_all : ∀ l : List Char, ((l.take (wsRun l)).all isWsChar) = true := by
  intro l
  induction l with
  | nil => rfl
  | cons c cs ih =>
    by_cases hc : isWsChar c = true
    · simp [wsRun, hc, ih]
    · simp [wsRun, hc]

theorem ws_suffix_structure (kw2 : List Char) (hkw2 : kw2 = andKw ∨ kw2 = orKw)
    (w T : List Char) (hsuf : T <:+ (w ++ (' ' :: (kw2 ++ [' '])))) (hne : T ≠ [])
    (hws : T.all isWsChar = true) : T = [' '] := by
  have hpre : T.reverse <+: (w ++ (' ' :: (kw2 ++ [' ']))).reverse := by
    exact List.reverse_prefix.mpr hsuf
  have hwsr : T.reverse.all isWsChar = true := by simpa using hws
  rcases hkw2 with rfl | rfl
  · have hrev : (w ++ (' ' :: (andKw ++ [' ']))).reverse =
        ' ' :: 'd' :: 'n' :: 'a' :: ' ' :: w.reverse := by
      simp [andKw, List.reverse_append]
    rw [hrev] at hpre
    cases hT : T.reverse with
    | nil =>
      exact absurd (by simpa using congrArg List.reverse hT) hne
    | cons c t2 =>
      rw [hT] at hpre hwsr
      obtain ⟨hc, hpre2⟩ := List.cons_prefix_cons.mp hpre
      cases t2 with
      | nil =>
        have : T = [' '] := by
          have := congrArg List.reverse hT
          simpa [hc] using this
        exact this
      | cons c2 t3 =>
        obtain ⟨hc2, _⟩ := List.cons_prefix_cons.mp hpre2
        rw [hc2] at hwsr
        simp [isWsChar] at hwsr
  · have hrev : (w ++ (' ' :: (orKw ++ [' ']))).reverse =
        ' ' :: 'r' :: 'o' :: ' ' :: w.reverse := by
      simp [orKw, List.reverse_append]
    rw [hrev] at hpre
    cases hT : T.reverse with
    | nil =>
      exact absurd (by simpa using congrArg List.reverse hT) hne
    | cons c t2 =>
      rw [hT] at hpre hwsr
      obtain ⟨hc, hpre2⟩ := List.cons_prefix_cons.mp hpre
      cases t2 with
      | nil =>
        have : T = [' '] := by
          have := congrArg List.reverse hT
          simpa [hc] using this
        exact this
      | cons c2 t3 =>
        obtain ⟨hc2, _⟩ := List.cons_prefix_cons.mp hpre2
        rw [hc2] at hwsr
        simp [isWsChar] at hwsr

theorem altEnd_append_sep_false (kw kw2 : List Char)
    (hkw : kw = andKw ∨ kw = orKw) (hkw2 : kw2 = andKw ∨ kw2 = orKw)
    (w : List Char) (hw : w ≠ [])
    (hlast : ∀ c, w.getLast? = some c → isWsChar c = false) :
    altEnd kw (w ++ (' ' :: (kw2 ++ [' ']))) = false := by
  set y := w ++ (' ' :: (kw2 ++ [' '])) with hy
  by_contra hcon
  have htrue : altEnd kw y = true := by
    cases h : altEnd kw y
    · exact absurd h hcon
    · rfl
  have ha : ¬(wsRun y = 0) := by
    intro h0
    simp [altEnd, h0] at htrue
  cases hm : matchKw kw (y.drop (wsRun y)) with
  | none => simp [altEnd, ha, hm] at htrue
  | some rest =>
    simp only [altEnd, if_neg ha, hm, Bool.and_eq_true] at htrue
    obtain ⟨hne0, hall⟩ := htrue
    have hne : rest ≠ [] := by
      intro h0
      rw [h0] at hne0
      simp at hne0
    have hdrop : rest = y.drop (wsRun y + kw.length) := by
      have h1 := matchKw_drop kw _ _ hm
      rw [h1, List.drop_drop]
    have hsuf : rest <:+ y := hdrop ▸ List.drop_suffix _ _
    have hT : rest = [' '] := ws_suffix_structure kw2 hkw2 w rest (hy ▸ hsuf) hne hall
    have hlen : y.length = wsRun y + kw.length + 1 := by
      have h1 : rest.length = y.length - (wsRun y + kw.length) := by
        rw [hdrop]
        exact List.length_drop _ _
      rw [hT] at h1
      simp at h1
      have h2 : wsRun y + kw.length < y.length := by
        by_contra h3
        push_neg at h3
        have : y.drop (wsRun y + kw.length) = [] := List.drop_eq_nil_of_le h3
        rw [← hdrop] at this
        exact hne this
      omega
    have hylen : y.length = w.length + kw2.length + 2 := by
      simp [hy]
      omega
    rcases hkw with rfl | rfl <;> rcases hkw2 with rfl | rfl
    · -- kw = and, kw2 = and: the run covers w ++ [' ']
      have haw : wsRun y = w.length + 1 := by
        simp [andKw] at hlen hylen
        omega
      have htake := wsRun_take_all y
      rw [haw] at htake
      have : y.take (w.length + 1) = w ++ [' '] := by
        rw [hy]
        rw [List.take_append 1]
        rfl
      rw [this] at htake
      simp only [List.all_append, Bool.and_eq_true] at htake
      have hwlast : ∃ c, w.getLast? = some c := by
        cases hw2 : w with
        | nil => exact absurd hw2 hw
        | cons a as => exact ⟨_, List.getLast?_eq_getLast _ (by simp)⟩
      obtain ⟨c, hc⟩ := hwlast
      have hcw : c ∈ w := by
        have h5 : w ≠ [] := hw
        rw [List.getLast?_eq_getLast _ h5] at hc
        have h6 : w.getLast h5 = c := by injection hc
        rw [← h6]
        exact List.getLast_mem h5
      have := (List.all_eq_true.mp htake.1) c hcw
      rw [hlast c hc] at this
      exact absurd this (by simp)
    · -- kw = and, kw2 = or: the keyword region cannot match
      have haw : wsRun y = w.length := by
        simp [andKw, orKw] at hlen hylen
        omega
      have hdropy : y.drop (wsRun y) = ' ' :: (orKw ++ [' ']) := by
        rw [haw, hy]
        have : w.length = w.length + 0 := by omega
        rw [this, List.drop_append 0]
        rfl
      rw [hdropy] at hm
      simp [matchKw, andKw, orKw] at hm
    · -- kw = or, kw2 = and: the keyword region cannot match
      have haw : wsRun y = w.length + 2 := by
        simp [andKw, orKw] at hlen hylen
        omega
      have hdropy : y.drop (wsRun y) = ['n', 'd', ' '] := by
        rw [haw, hy]
        rw [List.drop_append 2]
        rfl
      rw [hdropy] at hm
      simp [matchKw, orKw] at hm
    · -- kw = or, kw2 = or: the run covers w ++ [' ']
      have haw : wsRun y = w.length + 1 := by
        simp [orKw] at hlen hylen
        omega
      have htake := wsRun_take_all y
      rw [haw] at htake
      have : y.take (w.length + 1) = w ++ [' '] := by
        rw [hy]
        rw [List.take_append 1]
        rfl
      rw [this] at htake
      simp only [List.all_append, Bool.and_eq_true] at htake
      have hwlast : ∃ c, w.getLast? = some c := by
        cases hw2 : w with
        | nil => exact absurd hw2 hw
        | cons a as => exact ⟨_, List.getLast?_eq_getLast _ (by simp)⟩
      obtain ⟨c, hc⟩ := hwlast
      have hcw : c ∈ w := by
        have h5 : w ≠ [] := hw
        rw [List.getLast?_eq_getLast _ h5] at hc
        have h6 : w.getLast h5 = c := by injection hc
        rw [← h6]
        exact List.getLast_mem h5
      have := (List.all_eq_true.mp htake.1) c hcw
      rw [hlast c hc] at this
      exact absurd this (by simp)

theorem endScan_strip (kw2 : List Char) (hkw2 : kw2 = andKw ∨ kw2 = orKw) :
    ∀ x : List Char, (∀ c, x.getLast? = some c → isWsChar c = false) →
      endScan (x ++ (' ' :: (kw2 ++ [' ']))) = x := by
  intro x
  induction x with
  | nil =>
    intro _
    rcases hkw2 with rfl | rfl <;> decide
  | cons c cs ih =>
    intro hlast
    have h1 : altEnd andKw (c :: (cs ++ (' ' :: (kw2 ++ [' '])))) = false := by
      have := altEnd_append_sep_false andKw kw2 (Or.inl rfl) hkw2 (c :: cs) (by simp) hlast
      simpa using this
    have h2 : altEnd orKw (c :: (cs ++ (' ' :: (kw2 ++ [' '])))) = false := by
      have := altEnd_append_sep_false orKw kw2 (Or.inr rfl) hkw2 (c :: cs) (by simp) hlast
      simpa using this
    have hlast2 : ∀ c2, cs.getLast? = some c2 → isWsChar c2 = false := by
      intro c2 hc2
      apply hlast
      cases cs with
      | nil => simp at hc2
      | cons d ds => rw [List.getLast?_cons_cons]; exact hc2
    show endScan (c :: (cs ++ (' ' :: (kw2 ++ [' '])))) = c :: cs
    rw [endScan, h1, h2]
    simp [ih hlast2]

theorem jsClean_strip (kw2 : List Char) (hkw2 : kw2 = andKw ∨ kw2 = orKw)
    (w : List Char)
    (hhead : ∀ c, w.head? = some c → isWsChar c = false)
    (hlast : ∀ c, w.getLast? = some c → isWsChar c = false) :
    jsClean (w ++ (' ' :: (kw2 ++ [' ']))) = w := by
  cases w with
  | nil =>
    rcases hkw2 with rfl | rfl <;> decide
  | cons c cs =>
    have hheadc : isWsChar c = false := hhead c rfl
    have h1 : altEnd andKw ((c :: cs) ++ (' ' :: (kw2 ++ [' ']))) = false :=
      altEnd_append_sep_false andKw kw2 (Or.inl rfl) hkw2 (c :: cs) (by simp) hlast
    have h2 : altEnd orKw ((c :: cs) ++ (' ' :: (kw2 ++ [' ']))) = false :=
      altEnd_append_sep_false orKw kw2 (Or.inr rfl) hkw2 (c :: cs) (by simp) hlast
    have h1b : altEnd andKw (c :: (cs ++ (' ' :: (kw2 ++ [' '])))) = false := by
      simpa using h1
    have h2b : altEnd orKw (c :: (cs ++ (' ' :: (kw2 ++ [' '])))) = false := by
      simpa using h2
    have hs1 : altStart andKw (c :: (cs ++ (' ' :: (kw2 ++ [' '])))) = none := by
      simp [altStart, wsRun, hheadc]
    have hs2 : altStart orKw (c :: (cs ++ (' ' :: (kw2 ++ [' '])))) = none := by
      simp [altStart, wsRun, hheadc]
    have hlast2 : ∀ c2, cs.getLast? = some c2 → isWsChar c2 = false := by
      intro c2 hc2
      apply hlast
      cases cs with
      | nil => simp at hc2
      | cons d ds => rw [List.getLast?_cons_cons]; exact hc2
    show jsClean (c :: (cs ++ (' ' :: (kw2 ++ [' '])))) = c :: cs
    unfold jsClean
    rw [h1b, h2b, hs1, hs2]
    simp only [Bool.or_self, Bool.false_eq_true, if_false]
    rw [endScan_strip kw2 hkw2 cs hlast2]

theorem trimJs_id (w : List Char)
    (hhead : ∀ c, w.head? = some c → isWsChar c = false)
    (hlast : ∀ c, w.getLast? = some c → isWsChar c = false) :
    trimJs (String.mk w) = String.mk w := by
  have hdw : w.dropWhile isWsChar = w := by
    cases w with
    | nil => rfl
    | cons c cs => simp [List.dropWhile_cons, hhead c rfl]
  have hdw2 : w.reverse.dropWhile isWsChar = w.reverse := by
    cases hr : w.reverse with
    | nil => rfl
    | cons c cs =>
      have : w.getLast? = some c := by
        rw [← List.head?_reverse, hr]
        rfl
      simp [List.dropWhile_cons, hlast c this]
  simp [trimJs, hdw, hdw2]

theorem sepAnd_data : ((" and " : String)).data = ' ' :: (andKw ++ [' ']) := by decide

theorem sepOr_data : ((" or " : String)).data = ' ' :: (orKw ++ [' ']) := by decide

/-- C1 counterexample: a node carrying both `$and` and the leaf flag
`starred: true` compiles to the combinator's result alone — the query string
holds no `starred = true` conjunct and the filters summary records no
`starred` flag, contradicting the claim that both are produced and ANDed. -/
theorem c1_mixed_node_leaf_dropped :
    toDriveQuery (.obj (.mk (some [nodeOfName ("a")]) none none none none none none
        (some true) none none none none none)) =
      .ok ⟨"name contains 'a'", ⟨some ["a"], none, none, none, none, none, none, none⟩⟩ := by
  decide

/-- C1 amended: when a node carries a logical combinator, `emit` returns early
with the combinator's result alone (`$and` first, then `$or`, then `$not`) and
every leaf condition of the same node is ignored — `compile` of such a node
equals `compile` of the node stripped of all its leaf keys. -/
theorem c1_combinator_ignores_leaves :
    (∀ (l : List DQO) (o : Option (List DQO)) (nt : Option DQO)
       (nm mi ft pi : Option FieldVal) (st sw tr : Option Bool)
       (md : Option DateRange) (ow : Option FieldVal) (rw : Option String),
      toDriveQuery (.obj (.mk (some l) o nt nm mi ft pi st sw tr md ow rw)) =
        toDriveQuery (.obj (.mk (some l) none none none none none none none none none none none none))) ∧
    (∀ (l : List DQO) (nt : Option DQO)
       (nm mi ft pi : Option FieldVal) (st sw tr : Option Bool)
       (md : Option DateRange) (ow : Option FieldVal) (rw : Option String),
      toDriveQuery (.obj (.mk none (some l) nt nm mi ft pi st sw tr md ow rw)) =
        toDriveQuery (.obj (.mk none (some l) none none none none none none none none none none none))) ∧
    (∀ (c : DQO) (nm mi ft pi : Option FieldVal) (st sw tr : Option Bool)
       (md : Option DateRange) (ow : Option FieldVal) (rw : Option String),
      toDriveQuery (.obj (.mk none none (some c) nm mi ft pi st sw tr md ow rw)) =
        toDriveQuery (.obj (.mk none none (some c) none none none none none none none none none none))) := by
  refine ⟨?_, ?_, ?_⟩ <;> intros <;> simp [toDriveQuery, emitTop, isEmptyObj, allNoneLeaf]

/-- C2 counterexample: a node whose only key is the raw-query escape hatch
`rawDriveQuery` is not emitted character-for-character by `toDriveQuery` —
it reaches the `Unknown node` throw instead. -/
theorem c2_rawDriveQuery_throws :
    toDriveQuery (.obj (.mk none none none none none none none none none none none none
        (some ("name contains 'x'")))) = .error ("Unknown node") := by
  decide

/-- C2 amended: a plain-string input is returned character-for-character with
no escaping and an empty filters summary; but a node carrying `rawDriveQuery`
is not handled by `toDriveQuery` at all (it throws `Unknown node` for every
raw string) — the raw-node passthrough lives in the caller `files-search.ts`,
which emits the raw string wrapped in parentheses with ` and trashed = false`
appended, not character-for-character. -/
theorem c2_raw_passthrough :
    (∀ s : String, toDriveQuery (.str s) = .ok ⟨s, emptyFilters⟩) ∧
    (∀ rq : String,
      toDriveQuery (.obj (.mk none none none none none none none none none none none none
        (some rq))) = .error ("Unknown node")) ∧
    (∀ rq : String, rq ≠ "" →
      filesSearchQuery (.obj (.mk none none none none none none none none none none none none
        (some rq))) = .ok ("(" ++ rq ++ ") and trashed = false")) := by
  refine ⟨fun s => rfl, fun rq => by simp [toDriveQuery, emitTop, isEmptyObj, allNoneLeaf, emit,
    flagParts, leafEntries, processFields], fun rq hrq => ?_⟩
  have h2 : ((")") : String) ++ (" and trashed = false") = ((") and trashed = false")) := by
    decide
  simp [filesSearchQuery, DQO.rawDrive, hrq, pWrap, String.append_assoc, h2]

/-- C2 witness: the amended statement applied at concrete inputs. -/
theorem c2_raw_passthrough_witness :
    toDriveQuery (.str ("a(b")) = .ok ⟨"a(b", emptyFilters⟩ ∧
    toDriveQuery (.obj (.mk none none none none none none none none none none none none
      (some ("starred = true")))) = .error ("Unknown node") ∧
    filesSearchQuery (.obj (.mk none none none none none none none none none none none none
      (some ("starred = true")))) = .ok ("(starred = true) and trashed = false") :=
  ⟨c2_raw_passthrough.1 ("a(b"), c2_raw_passthrough.2.1 ("starred = true"),
    c2_raw_passthrough.2.2 ("starred = true") (by decide)⟩

/-- C3 counterexample: the node `{name: {}}` satisfies the schema shape (all
three keys of a FieldOperator are optional), yet `toDriveQuery` throws the
`Unknown field operator` contract-violation error — so the compiler does not
accept everything the schema accepts. -/
theorem c3_schema_valid_throw :
    schemaValidQuery (.obj (.mk none none none (some (.op ⟨none, none, none⟩)) none none none
        none none none none none none)) = true ∧
    toDriveQuery (.obj (.mk none none none (some (.op ⟨none, none, none⟩)) none none none
        none none none none none none)) = .error ("Unknown field operator") := by
  constructor <;> decide

/-- C3 amended: `compile` never throws on inputs in which every field operator
has at least one of `$any`/`$all`/`$none` present and every non-combinator
node is the empty object or contributes at least one expression (a boolean
flag, a `modifiedTime`, or a leaf field with a non-blank value in its
processed clause); a FieldOperator with no recognized key always throws the
descriptive `Unknown field operator` error.  The schema shape alone does not
guarantee absence of throws (see the counterexample: the empty operator, a
`rawDriveQuery`-only node, or all-blank values are schema-valid but throw). -/
theorem c3_no_throw_characterization :
    (∀ n : DQO, wfQuery n = true → ∃ r, toDriveQuery (.obj n) = .ok r) ∧
    (∀ (k : String) (o : FieldOperator) (s : CompState), opOk o = false →
      fieldExpr k o s = .error ("Unknown field operator")) := by
  constructor
  · intro n hwf
    obtain ⟨⟨q, s1⟩, hout⟩ := emitTop_wf_ok n initState hwf
    exact ⟨⟨cleanedQuery q, mkFilters s1⟩, by simp [toDriveQuery, hout]⟩
  · intro k o s h
    rcases o with ⟨ao, al, no⟩
    cases ao <;> cases al <;> cases no <;> simp [opOk] at h <;> rfl

/-- C3 witness: the amended statement applied at a concrete well-formed node
and at the concrete empty operator. -/
theorem c3_no_throw_witness :
    (∃ r, toDriveQuery (.obj (nodeOfName ("budget"))) = .ok r) ∧
    fieldExpr ("owner") ⟨none, none, none⟩ initState = .error ("Unknown field operator") :=
  ⟨c3_no_throw_characterization.1 (nodeOfName ("budget")) (by decide),
    c3_no_throw_characterization.2 ("owner") ⟨none, none, none⟩ initState (by decide)⟩

/-- C4 counterexample: `$not` below the root over the single-fragment child
`{name: "a"}` compiles to the unparenthesized `not name contains 'a'`, not to
`not (name contains 'a')` as the claim states. -/
theorem c4_not_unparenthesized_example :
    toDriveQuery (.obj (.mk (some [.mk none none (some (nodeOfName ("a"))) none none none none
        none none none none none none]) none none none none none none none none none none none none)) =
      .ok ⟨"not name contains 'a'", ⟨some ["a"], none, none, none, none, none, none, none⟩⟩ := by
  decide

/-- C4 amended: `emit` of a `$not` node prepends the bare prefix string
`"not "` to the child's emission and adds no parentheses of its own — the
child's emission is parenthesized only when it is parenthesized by its own
rules (a combinator child or a multi-fragment leaf child). -/
theorem c4_not_bare_keyword :
    ∀ (c : DQO) (nm mi ft pi : Option FieldVal) (st sw tr : Option Bool)
      (md : Option DateRange) (ow : Option FieldVal) (rw : Option String) (s : CompState),
      emit (.mk none none (some c) nm mi ft pi st sw tr md ow rw) s =
        Except.map (fun r => ("not " ++ r.1, r.2)) (emit c s) := by
  intros c nm mi ft pi st sw tr md ow rw s
  simp [emit]
  cases emit c s <;> simp [Except.map]

/-- C5: a root `$and`/`$or` join is emitted without the enclosing pair of
parentheses that `emit` adds one level deeper: `emit` of the same node is
exactly `emitTop`'s result wrapped in `(...)`, and the concrete example
compiles to `name contains 'a' and starred = true` at the root while the same
conjunction nested under `$or` appears fully parenthesized. -/
theorem c5_root_unwrapped :
    toDriveQuery (.obj (.mk (some [nodeOfName ("a"), .mk none none none none none none none
        (some true) none none none none none]) none none none none none none none none none none none none)) =
      .ok ⟨"name contains 'a' and starred = true",
        ⟨some ["a"], none, none, none, none, some true, none, none⟩⟩ ∧
    toDriveQuery (.obj (.mk none (some [.mk (some [nodeOfName ("a"), .mk none none none none none
        none none (some true) none none none none none]) none none none none none none none none
        none none none none, .mk none none none none none none none none none (some false) none
        none none]) none none none none none none none none none none none)) =
      .ok ⟨"(name contains 'a' and starred = true) or trashed = false",
        ⟨some ["a"], none, none, none, none, some true, none, some false⟩⟩ ∧
    (∀ (l : List DQO) (o : Option (List DQO)) (nt : Option DQO)
       (nm mi ft pi : Option FieldVal) (st sw tr : Option Bool)
       (md : Option DateRange) (ow : Option FieldVal) (rw : Option String) (s : CompState),
      emit (.mk (some l) o nt nm mi ft pi st sw tr md ow rw) s =
        Except.map (fun r => (pWrap r.1, r.2))
          (emitTop (.mk (some l) o nt nm mi ft pi st sw tr md ow rw) s)) ∧
    (∀ (l : List DQO) (nt : Option DQO)
       (nm mi ft pi : Option FieldVal) (st sw tr : Option Bool)
       (md : Option DateRange) (ow : Option FieldVal) (rw : Option String) (s : CompState),
      emit (.mk none (some l) nt nm mi ft pi st sw tr md ow rw) s =
        Except.map (fun r => (pWrap r.1, r.2))
          (emitTop (.mk none (some l) nt nm mi ft pi st sw tr md ow rw) s)) := by
  refine ⟨by decide, by decide, ?_, ?_⟩
  · intro l o nt nm mi ft pi st sw tr md ow rw s
    simp [emit, emitTop, isEmptyObj, allNoneLeaf]
    cases emitList l s <;> simp [Except.map]
  · intro l nt nm mi ft pi st sw tr md ow rw s
    simp [emit, emitTop, isEmptyObj, allNoneLeaf]
    cases emitList l s <;> simp [Except.map]

/-- C6 counterexample: for the well-formed input `{$and: [{name: "a"}, {}, {}]}`
(two trailing empty-object branches), the final query string is
`name contains 'a' and` — it ends with a dangling ` and` token, contradicting
the claim that this never happens. -/
theorem c6_dangling_and :
    toDriveQuery (.obj (.mk (some [nodeOfName ("a"), emptyNode, emptyNode]) none none none none
        none none none none none none none none)) =
      .ok ⟨"name contains 'a' and", ⟨some ["a"], none, none, none, none, none, none, none⟩⟩ ∧
    List.isSuffixOf ((" and").data) (("name contains 'a' and").data) = true := by
  constructor <;> decide

/-- C6 amended: the defensive cleanup removes a single dangling whitespace-
delimited trailing ` and `/` or ` token and trims, so one empty branch at the
edge is cleaned (for any fragment with non-whitespace first and last
characters, appending one dangling separator is fully stripped, and the
concrete single-empty-branch input compiles cleanly) — but two consecutive
empty branches stack two separators and the strip removes only the outermost,
so the final query string can still end with ` and`/` or` (see the
counterexample). -/
theorem c6_single_dangling_stripped :
    (∀ x : String,
      (∀ c, x.data.head? = some c → isWsChar c = false) →
      (∀ c, x.data.getLast? = some c → isWsChar c = false) →
      cleanedQuery (x ++ (" and ")) = x ∧ cleanedQuery (x ++ (" or ")) = x) ∧
    toDriveQuery (.obj (.mk (some [nodeOfName ("a"), emptyNode]) none none none none none none
        none none none none none none)) =
      .ok ⟨"name contains 'a'", ⟨some ["a"], none, none, none, none, none, none, none⟩⟩ := by
  constructor
  · rintro ⟨w⟩ hhead hlast
    constructor
    · show cleanedQuery (String.mk w ++ (" and ")) = String.mk w
      have hd : (String.mk w ++ (" and ")).data = w ++ (' ' :: (andKw ++ [' '])) := by
        rw [String.data_append]
        rw [sepAnd_data]
      unfold cleanedQuery
      rw [hd, jsClean_strip andKw (Or.inl rfl) w hhead hlast, trimJs_id w hhead hlast]
    · show cleanedQuery (String.mk w ++ (" or ")) = String.mk w
      have hd : (String.mk w ++ (" or ")).data = w ++ (' ' :: (orKw ++ [' '])) := by
        rw [String.data_append]
        rw [sepOr_data]
      unfold cleanedQuery
      rw [hd, jsClean_strip orKw (Or.inr rfl) w hhead hlast, trimJs_id w hhead hlast]
  · decide

/-- C6 witness: the amended strip property applied at the concrete fragment
`name contains 'a'`. -/
theorem c6_single_dangling_stripped_witness :
    cleanedQuery ("name contains 'a'" ++ (" and ")) = "name contains 'a'" ∧
    cleanedQuery ("name contains 'a'" ++ (" or ")) = "name contains 'a'" :=
  c6_single_dangling_stripped.1 ("name contains 'a'") (by decide) (by decide)

/-- C7 counterexample: for `{name: {$any: ["a"], $all: ["b"]}}` the compiler
emits only the `$any` clause — the value `b` contributes neither a fragment
nor a filters-summary entry, contradicting the claim that each present clause
contributes. -/
theorem c7_later_clause_ignored :
    toDriveQuery (.obj (.mk none none none (some (.op ⟨some ["a"], some ["b"], none⟩)) none none
        none none none none none none none)) =
      .ok ⟨"name contains 'a'", ⟨some ["a"], none, none, none, none, none, none, none⟩⟩ := by
  decide

/-- C7 amended: `fieldExpr` processes only the first present clause in the
order `$any`, `$all`, `$none`; any later present clauses are ignored entirely
(the result is identical to the operator with the later clauses removed). -/
theorem c7_first_clause_wins :
    (∀ (field : String) (vs : List String) (b c : Option (List String)) (s : CompState),
      fieldExpr field ⟨some vs, b, c⟩ s = fieldExpr field ⟨some vs, none, none⟩ s) ∧
    (∀ (field : String) (vs : List String) (c : Option (List String)) (s : CompState),
      fieldExpr field ⟨none, some vs, c⟩ s = fieldExpr field ⟨none, some vs, none⟩ s) :=
  ⟨fun _ _ _ _ _ => rfl, fun _ _ _ _ => rfl⟩

/-- C8: every literal compiled into a leaf-field fragment is also appended to
the matching FilterSummary accumulator, in order with duplicates preserved:
for each of the five fields, processing a `$any`/`$all`/`$none` clause appends
exactly the clause's non-blank values (the compiled ones) to that field's
list, and wrapping any node in `$not` leaves the accumulated state unchanged
(the summary is recorded even under negation). -/
theorem c8_summary_records_referenced_values :
    (∀ (fld : LeafField) (vs : List String) (s : CompState),
      ∃ q s2, fieldExpr fld.key ⟨some vs, none, none⟩ s = .ok (q, s2) ∧
        summaryList fld s2 = summaryList fld s ++ vs.filter (fun v => !isBlank v)) ∧
    (∀ (fld : LeafField) (vs : List String) (s : CompState),
      ∃ q s2, fieldExpr fld.key ⟨none, some vs, none⟩ s = .ok (q, s2) ∧
        summaryList fld s2 = summaryList fld s ++ vs.filter (fun v => !isBlank v)) ∧
    (∀ (fld : LeafField) (vs : List String) (s : CompState),
      ∃ q s2, fieldExpr fld.key ⟨none, none, some vs⟩ s = .ok (q, s2) ∧
        summaryList fld s2 = summaryList fld s ++ vs.filter (fun v => !isBlank v)) ∧
    (∀ (n : DQO) (s : CompState),
      Except.map Prod.snd
          (emit (.mk none none (some n) none none none none none none none none none none) s) =
        Except.map Prod.snd (emit n s)) := by
  refine ⟨?_, ?_, ?_, ?_⟩
  · intro fld vs s
    refine ⟨_, _, rfl, ?_⟩
    simp [summaryList_fvList]
  · intro fld vs s
    refine ⟨_, _, rfl, ?_⟩
    simp [summaryList_fvList]
  · intro fld vs s
    refine ⟨_, _, rfl, ?_⟩
    simp [summaryList_fvList]
  · intro n s
    simp [emit]
    cases emit n s <;> simp [Except.map]

/-- C9: the compiler is pure and deterministic — in a sequence of calls, the
result of a call depends only on its own input (every call starts from the
fresh `initState`, never from state left by earlier calls), so two calls with
structurally equal input produce identical `{q, filters}` results regardless
of call history. -/
theorem c9_pure_deterministic :
    ∀ (h1 h2 : List DriveQuery) (q q2 : DriveQuery), q = q2 →
      (runCalls (h1 ++ [q])).getLast? = (runCalls (h2 ++ [q2])).getLast? := by
  intro h1 h2 q q2 h
  subst h
  simp [runCalls]

/-- C9 witness: two calls with the structurally equal input `{}` after
different call histories produce the same result. -/
theorem c9_pure_deterministic_witness :
    (runCalls ([.str ("x")] ++ [.obj emptyNode])).getLast? =
      (runCalls ([] ++ [.obj emptyNode])).getLast? :=
  c9_pure_deterministic [.str ("x")] [] (.obj emptyNode) (.obj emptyNode) rfl

/-- C10: a leaf field set to a plain string `v` compiles exactly like the same
field set to the singleton operator `{$any: [v]}` — for every node, every one
of the five leaf fields, and every string, the full `{q, filters}` results
coincide (the normalization `typeof op === 'string' ? {$any: [op]} : op`). -/
theorem c10_string_is_singleton_any :
    ∀ (fld : LeafField) (n : DQO) (v : String),
      toDriveQuery (.obj (setLeaf fld (some (.str v)) n)) =
        toDriveQuery (.obj (setLeaf fld (some (.op ⟨some [v], none, none⟩)) n)) := by
  intro fld n v
  cases n with
  | mk a o nt nm mi ft pi st sw tr md ow rw =>
    cases fld <;> cases a <;> cases o <;> cases nt <;>
      simp [setLeaf, toDriveQuery, emitTop, emit, isEmptyObj, allNoneLeaf, leafEntries,
        normalizeFieldVal]
